import Mathlib

/-!
Verification development for the `regex` repository (Pike-VM regex engine in C).

The C sources are shallowly embedded as executable Lean definitions:

* `src/regex.h`   : `Code` (the C `enum code`, extended with the `Any`,
  `Range`, `NRange` opcodes used by `pike.c`/`codegen.c`) and `instr`.
* `src/pike.c`    : `range`, `addthread`, `execute` (with instrumentation
  counters used by the theorems: thread-list trace, per-step call counts,
  input indices read), `numsaves`.
* `src/instr.c`   : `trim`, tokenizing, `read_instr`, `gettarget`,
  `read_prog`, `write_prog`.
* `src/codegen.c` : fragments, `join`, `term`, `expr`, `sub`, `regex`,
  `codegen`.

Machine pointers that carry numeric content (jump targets, fragment ids)
become `Nat`; `NULL`/`(size_t)-1` sentinels become `Option`; the mutable
per-instruction `lastidx` scratch becomes an explicit `Nat → Option Nat`
map threaded through the VM (`none` is the C sentinel `(size_t)-1`).
C recursions whose termination rests on the `lastidx` deduplication are
given an explicit fuel that provably dominates the number of iterations
(comments at the definitions); all other recursions are structural.
-/

/-- The C `enum code` from `regex.h`, together with the `Any`, `Range` and
`NRange` opcodes that `pike.c` and `codegen.c` use.  `Char` is the first
(zero) constructor, so a zero-initialized instruction has opcode `Char`,
as with `instr inst = {0}` in `read_instr`. -/
inductive Code where
  | Char
  | Match
  | Jump
  | Split
  | Save
  | Any
  | Range
  | NRange
deriving DecidableEq, Repr

/-- The C `struct instr`.  `x`/`y` are the jump/split targets: in the C they
are `instr*` pointers into the program array, here they are the array
indices those pointers denote (also used for symbolic fragment ids during
code generation).  The out-of-band character-range block that the C hangs
off `x` for `Range`/`NRange` is the `ranges` field.  The `lastidx` scratch
field lives in the VM state, not here, so programs stay immutable. -/
structure instr where
  code : Code := Code.Char
  c : Char := '\x00'
  s : Nat := 0
  x : Nat := 0
  y : Nat := 0
  ranges : List (Char × Char) := []
deriving DecidableEq, Repr

/-- The C `struct thread` from `pike.c`: a program counter plus the
capture vector (`size_t *saved` becomes `List Nat`). -/
structure thread where
  pc : Nat
  saved : List Nat
deriving DecidableEq, Repr

/-- C-string character access: `input[sp]`.  Valid C indices are
`0 … input.length` (the terminator `'\x00'` sits at `input.length`);
any larger index is an out-of-bounds read in the C, which this total
model maps to `'\x00'` as well.  The theorems about out-of-bounds
behaviour therefore use the read log of the VM, not this function's
value past the end. -/
def cstrGet (input : List Char) (sp : Nat) : Char :=
  input.getD sp '\x00'

/-- `range()` from `pike.c`: membership test for `Range`/`NRange`.
`'\x00'` fails before the negation, exactly as in the C. -/
def range (ins : instr) (test : Char) : Bool :=
  if test = '\x00' then false
  else
    let result := (List.range ins.s).any fun i =>
      match ins.ranges[i]? with
      | some p => decide (p.1 ≤ test ∧ test ≤ p.2)
      | none => false
    if ins.code = Code.Range then result else !result

/-- Result of `addthread`: the updated `lastidx` map, the updated thread
list, and two instrumentation counters: `total` counts every `addthread`
invocation (including those rejected by the `lastidx` duplicate check),
`eff` counts only the invocations that pass the duplicate check. -/
structure ARes where
  li : Nat → Option Nat
  threads : List thread
  total : Nat
  eff : Nat

/-- Worklist form of the recursive `addthread` from `pike.c`.  Each popped
worklist item is one C `addthread` invocation; the C recursion order
(`Split` runs `x` and all of its descendants before `y`) is preserved by
pushing onto the front of the stack.  The C recursion terminates because
every non-duplicate call marks `lastidx[pc] = sp` and duplicates return
immediately; fuel `2·|prog| + 2` dominates the pop count (at most
`1 + 2·(number of non-duplicate pops) ≤ 1 + 2·|prog|` items are ever
pushed, since only `Jump`/`Split`/`Save` pops push, at most two each).
A `pc` outside the program is undefined behaviour in the C; here the item
is dropped (such a `pc` never arises for well-formed programs). -/
def addthreadFuel (prog : List instr) (sp : Nat) :
    Nat → (Nat → Option Nat) → List thread → List (Nat × List Nat) → ARes
  | 0, li, ts, _ => ⟨li, ts, 0, 0⟩
  | _ + 1, li, ts, [] => ⟨li, ts, 0, 0⟩
  | fuel + 1, li, ts, (pc, saved) :: rest =>
    match prog[pc]? with
    | none =>
      let r := addthreadFuel prog sp fuel li ts rest
      ⟨r.li, r.threads, r.total + 1, r.eff⟩
    | some ins =>
      if li pc = some sp then
        -- already executed this instruction at this string index
        let r := addthreadFuel prog sp fuel li ts rest
        ⟨r.li, r.threads, r.total + 1, r.eff⟩
      else
        let li2 : Nat → Option Nat := fun i => if i = pc then some sp else li i
        let r : ARes :=
          match ins.code with
          | Code.Jump => addthreadFuel prog sp fuel li2 ts ((ins.x, saved) :: rest)
          | Code.Split =>
            addthreadFuel prog sp fuel li2 ts ((ins.x, saved) :: (ins.y, saved) :: rest)
          | Code.Save =>
            addthreadFuel prog sp fuel li2 ts ((pc + 1, saved.set ins.s sp) :: rest)
          | _ => addthreadFuel prog sp fuel li2 (ts ++ [⟨pc, saved⟩]) rest
        ⟨r.li, r.threads, r.total + 1, r.eff + 1⟩

/-- `addthread()` from `pike.c` (outer call). -/
def addthread (prog : List instr) (sp : Nat) (li : Nat → Option Nat)
    (ts : List thread) (pc : Nat) (saved : List Nat) : ARes :=
  addthreadFuel prog sp (2 * prog.length + 2) li ts [(pc, saved)]

/-- Result of one iteration of the step loop in `execute`: updated
`lastidx`, the `next` thread list, the `addthread` invocation counters for
this step, the input indices read (`reads`), and the match recorded by a
`Match` thread this step, if any. -/
structure StepRes where
  li : Nat → Option Nat
  next : List thread
  total : Nat
  eff : Nat
  reads : List Nat
  matched : Option (Nat × List Nat)

/-- The per-thread loop inside one iteration of `execute`'s step loop
(`for (size_t t = 0; t < curr.n; t++) … switch (pc->code)`).
`Char`/`Any`/`Range`/`NRange` read `input[sp]` (logged in `reads`) and
either die or hand the successor to `addthread` at `sp+1`; `Match`
records the match and stops scanning the remaining threads (`goto cont`).
`Jump`/`Split`/`Save` reaching this loop is `assert(false)` in the C and
cannot happen (see the C5 theorem); a `pc` outside the program is likewise
undefined behaviour in the C; both are modelled as the thread being
skipped. -/
def stepThreads (prog : List instr) (input : List Char) (sp : Nat) :
    List thread → (Nat → Option Nat) → List thread → Nat → Nat → List Nat → StepRes
  | [], li, next, tot, eff, reads => ⟨li, next, tot, eff, reads, none⟩
  | t :: rest, li, next, tot, eff, reads =>
    match prog[t.pc]? with
    | none => stepThreads prog input sp rest li next tot eff reads
    | some ins =>
      match ins.code with
      | Code.Char =>
        if cstrGet input sp = ins.c then
          let r := addthread prog (sp + 1) li next (t.pc + 1) t.saved
          stepThreads prog input sp rest r.li r.threads (tot + r.total) (eff + r.eff)
            (reads ++ [sp])
        else
          stepThreads prog input sp rest li next tot eff (reads ++ [sp])
      | Code.Any =>
        if cstrGet input sp = '\x00' then
          stepThreads prog input sp rest li next tot eff (reads ++ [sp])
        else
          let r := addthread prog (sp + 1) li next (t.pc + 1) t.saved
          stepThreads prog input sp rest r.li r.threads (tot + r.total) (eff + r.eff)
            (reads ++ [sp])
      | Code.Range =>
        if range ins (cstrGet input sp) then
          let r := addthread prog (sp + 1) li next (t.pc + 1) t.saved
          stepThreads prog input sp rest r.li r.threads (tot + r.total) (eff + r.eff)
            (reads ++ [sp])
        else
          stepThreads prog input sp rest li next tot eff (reads ++ [sp])
      | Code.NRange =>
        if range ins (cstrGet input sp) then
          let r := addthread prog (sp + 1) li next (t.pc + 1) t.saved
          stepThreads prog input sp rest r.li r.threads (tot + r.total) (eff + r.eff)
            (reads ++ [sp])
        else
          stepThreads prog input sp rest li next tot eff (reads ++ [sp])
      | Code.Match => ⟨li, next, tot, eff, reads, some (sp, t.saved)⟩
      | _ => stepThreads prog input sp rest li next tot eff reads

/-- Result of `execute`: the returned match position (`-1` in the C is
`none`), the stashed capture vector, plus instrumentation: `trace` records
the `curr` thread list at every check of the loop condition (so every
completed thread list of the run; lists only ever grow by appends inside a
step, so every intermediate length is dominated by a traced one), `counts`
records the per-step `addthread` invocation counters `(total, eff)`, and
`readsL` records the input indices read per step. -/
structure ExecRes where
  matchLen : Option Nat
  saved : Option (List Nat)
  trace : List (List thread)
  counts : List (Nat × Nat)
  readsL : List (List Nat)
deriving Repr

/-- The step loop of `execute` (`for (sp = 0; curr.n > 0; sp++)`).
The C loop has no built-in bound; its natural termination (all threads die
once the terminator has been read) is captured by the fuel `execute`
passes, which suffices for every run that the C completes. -/
def executeLoop (prog : List instr) (input : List Char) :
    Nat → Nat → (Nat → Option Nat) → List thread → Option Nat → Option (List Nat) → ExecRes
  | 0, _, _, curr, m, sv => ⟨m, sv, [curr], [], []⟩
  | fuel + 1, sp, li, curr, m, sv =>
    if curr.isEmpty then ⟨m, sv, [curr], [], []⟩
    else
      let s := stepThreads prog input sp curr li [] 0 0 []
      let m2 := match s.matched with | some p => some p.1 | none => m
      let sv2 := match s.matched with | some p => some p.2 | none => sv
      let r := executeLoop prog input fuel (sp + 1) s.li s.next m2 sv2
      ⟨r.matchLen, r.saved, curr :: r.trace, (s.total, s.eff) :: r.counts,
        s.reads :: r.readsL⟩

/-- The capture-vector length that `execute` in `pike.c` actually computes:
the initialization loop increments `nsave` once per `Save` instruction
(`if (prog[i].code == Save) nsave++;`). -/
def nsaveOf (prog : List instr) : Nat :=
  prog.countP fun i => i.code == Code.Save

/-- `execute()` from `pike.c`.  `lastidx` starts at the sentinel
(`none` = `(size_t)-1`), the capture-vector length is `nsaveOf`, and the
seed thread enters at `pc = 0`, `sp = 0` with a zero-filled capture
vector.  The fuel `input.length + 2` covers every step the C loop performs
on runs it completes (each step advances `sp` by one, and after the step
that reads the terminator only `Char '\x00'` threads — an out-of-bounds
scenario in the C, see the C10 theorem — could survive). -/
def execute (prog : List instr) (input : List Char) : ExecRes :=
  let nsave := nsaveOf prog
  let seed := addthread prog 0 (fun _ => none) [] 0 (List.replicate nsave 0)
  executeLoop prog input (input.length + 2) 0 seed.li seed.threads none none

/-- `numsaves()` from `pike.c` (used by the driver): one more than the
largest `Save` slot, starting the running maximum at zero. -/
def numsaves (code : List instr) : Nat :=
  (code.foldl (fun ns i => if i.code = Code.Save ∧ ns < i.s then i.s else ns) 0) + 1

/-- The capture-vector length as the specification describes it
(claim side, for comparison): one more than the maximum `slot` of any
`Save` instruction, or zero if there is none. -/
def nsaveSpec (prog : List instr) : Nat :=
  let slots := prog.filterMap fun i => if i.code = Code.Save then some i.s else none
  if slots.isEmpty then 0 else (slots.foldl Nat.max 0) + 1

/-! ## Assembly I/O (`src/instr.c`) -/

/-- `isspace` on the characters that can occur in a text buffer. -/
def cIsSpace (ch : Char) : Bool :=
  ch = ' ' ∨ ch = '\t' ∨ ch = '\n' ∨ ch = '\x0b' ∨ ch = '\x0c' ∨ ch = '\r'

/-- The newline split that `read_prog` performs on its buffer: the segments
between `'\n'` characters (one more segment than newlines, as in the C's
`nlines` count). -/
def splitLinesAux : List Char → List Char → List String
  | [], acc => [String.mk acc.reverse]
  | ch :: rest, acc =>
    if ch = '\n' then String.mk acc.reverse :: splitLinesAux rest []
    else splitLinesAux rest (ch :: acc)

def splitLines (s : String) : List String :=
  splitLinesAux s.toList []

/-- `trim()` from `instr.c`: cut the line at the first `';'` (comment),
then strip leading and trailing whitespace.  The C also reports the last
remaining character through `lastchar_out`; here callers look at the last
character of the returned string. -/
def trim (line : String) : String :=
  let pre := line.toList.takeWhile fun ch => ch ≠ ';'
  let pre := pre.dropWhile cIsSpace
  let pre := (pre.reverse.dropWhile cIsSpace).reverse
  String.mk pre

/-- Line classification in `read_prog` (via `trim`'s last character). -/
inductive linetype where
  | Blank
  | Label
  | CodeLine
deriving DecidableEq, Repr

def classify (t : String) : linetype :=
  match t.toList.getLast? with
  | none => linetype.Blank
  | some ch => if ch = ':' then linetype.Label else linetype.CodeLine

/-- The whitespace tokenization in `read_instr` (split on whitespace runs;
the trimmed line has no leading/trailing whitespace, but the splitter is
total anyway). -/
def wsSplitAux : List Char → List Char → List String
  | [], acc => if acc.isEmpty then [] else [String.mk acc.reverse]
  | ch :: rest, acc =>
    if cIsSpace ch then
      if acc.isEmpty then wsSplitAux rest []
      else String.mk acc.reverse :: wsSplitAux rest []
    else wsSplitAux rest (ch :: acc)

def wsSplit (s : String) : List String :=
  wsSplitAux s.toList []

/-- `sscanf(tok, "%zu", &inst.s)`: the value of the longest digit prefix;
if there is none the field keeps its zero initialization, as in the C. -/
def parseSizeT (t : String) : Nat :=
  (t.toList.takeWhile Char.isDigit).foldl (fun acc ch => acc * 10 + (ch.toNat - 48)) 0

/-- An instruction as produced by `read_instr`, before label resolution.
In the C the `x`/`y` pointer fields are punned to hold the label token
text (`inst.x = (instr*)tokens[1]`) or `NULL`; here they are
`Option String`. -/
structure rinstr where
  code : Code := Code.Char
  c : Char := '\x00'
  s : Nat := 0
  xlab : Option String := none
  ylab : Option String := none
deriving DecidableEq, Repr

/-- `read_instr()` from `instr.c` on an already-trimmed code line.
`.error` models the `exit(1)` paths.  The unknown-opcode branch prints its
diagnostic but does **not** exit in the C — it falls through and returns
the zero-initialized instruction — so it is modelled as success carrying
the diagnostic text (first component) and the zero instruction. -/
def read_instr (line : String) (lineno : Nat) : Except String (Option String × rinstr) :=
  let tokens := wsSplit line
  if 4 ≤ tokens.length then
    Except.error (toString lineno ++ ": too many tokens on one line")
  else
    let t0 := tokens.headD ""
    let cnt := tokens.length
    if t0 = "char" then
      if cnt ≠ 2 then Except.error ("line " ++ toString lineno ++ ": require 2 tokens for char")
      else Except.ok (none, { code := Code.Char, c := (tokens.getD 1 "").toList.headD '\x00' })
    else if t0 = "match" then
      if cnt ≠ 1 then Except.error ("line " ++ toString lineno ++ ": require 1 token for match")
      else Except.ok (none, { code := Code.Match })
    else if t0 = "jump" then
      if cnt ≠ 2 then Except.error ("line " ++ toString lineno ++ ": require 2 tokens for jump")
      else Except.ok (none, { code := Code.Jump, xlab := some (tokens.getD 1 "") })
    else if t0 = "split" then
      if cnt ≠ 3 then Except.error ("line " ++ toString lineno ++ ": require 3 tokens for split")
      else Except.ok (none, { code := Code.Split, xlab := some (tokens.getD 1 ""),
                              ylab := some (tokens.getD 2 "") })
    else if t0 = "save" then
      if cnt ≠ 2 then Except.error ("line " ++ toString lineno ++ ": require 2 tokens for save")
      else Except.ok (none, { code := Code.Save, s := parseSizeT (tokens.getD 1 "") })
    else
      Except.ok (some ("line " ++ toString lineno ++ ": unknown opcode \"" ++ t0 ++ "\""), {})

/-- The label table built by `read_prog`: each label line (colon stripped)
maps to the number of code lines preceding it. -/
def labelTable : List String → Nat → List (String × Nat)
  | [], _ => []
  | t :: rest, codeidx =>
    match classify t with
    | linetype.Label => (t.dropRight 1, codeidx) :: labelTable rest codeidx
    | linetype.CodeLine => labelTable rest (codeidx + 1)
    | linetype.Blank => labelTable rest codeidx

/-- `gettarget()` from `instr.c`: first matching label, else fatal. -/
def gettarget (labels : List (String × Nat)) (label : String) (line : Nat) :
    Except String Nat :=
  match labels.find? (fun p => p.1 = label) with
  | some p => Except.ok p.2
  | none => Except.error ("line " ++ toString line ++ ": label \"" ++ label ++ "\" not found")

/-- Label resolution for one instruction in `read_prog`'s main loop
(`if (rv[codeidx].x) rv[codeidx].x = rv + gettarget(...)`). -/
def resolveInstr (labels : List (String × Nat)) (r : rinstr) (lineno : Nat) :
    Except String instr :=
  let base : instr := { code := r.code, c := r.c, s := r.s }
  match r.xlab, r.ylab with
  | none, none => Except.ok base
  | some lx, none => do
    let ix ← gettarget labels lx lineno
    Except.ok { base with x := ix }
  | none, some ly => do
    let iy ← gettarget labels ly lineno
    Except.ok { base with y := iy }
  | some lx, some ly => do
    let ix ← gettarget labels lx lineno
    let iy ← gettarget labels ly lineno
    Except.ok { base with x := ix, y := iy }

/-- `read_prog`'s main loop over the trimmed lines, carrying the 1-based
line number used in diagnostics.  Returns the diagnostics printed without
aborting (unknown opcodes) together with the parsed program. -/
def readLines (labels : List (String × Nat)) :
    List String → Nat → Except String (List String × List instr)
  | [], _ => Except.ok ([], [])
  | t :: rest, lineno =>
    match classify t with
    | linetype.CodeLine => do
      let (diag, r) ← read_instr t lineno
      let ins ← resolveInstr labels r lineno
      let (ds, is) ← readLines labels rest (lineno + 1)
      Except.ok ((match diag with | some d => d :: ds | none => ds), ins :: is)
    | _ => readLines labels rest (lineno + 1)

/-- `read_prog()` from `instr.c`: split into lines, trim and classify,
build the label table, then parse and resolve each code line.  The first
component of a successful result is the list of diagnostics that the C
prints to `stderr` without aborting. -/
def read_prog (str : String) : Except String (List String × List instr) :=
  let lines := (splitLines str).map trim
  let labels := labelTable lines 0
  readLines labels lines 1

/-- The label-marking passes of `write_prog()`: `marked i` says some
jump/split targets instruction `i`; `assignNums` then numbers the marked
instructions `1, 2, …` in increasing index order. -/
def marked (prog : List instr) (i : Nat) : Bool :=
  prog.any fun ins =>
    ((ins.code = Code.Jump ∨ ins.code = Code.Split) ∧ ins.x = i)
      ∨ (ins.code = Code.Split ∧ ins.y = i)

def assignNums : List Bool → Nat → List Nat
  | [], _ => []
  | b :: rest, l => if b then l :: assignNums rest (l + 1) else 0 :: assignNums rest l

/-- The text `write_prog()` prints for one instruction (without the label
line).  Note the Jump case: the C prints `prog[i].x - prog` — the target's
*instruction index* — after the letter `L`, not the target's assigned
label number (the Split case does use `labels[...]`).  `Any`/`Range`/
`NRange` have no case in the C switch, so nothing is printed for them. -/
def instrText (nums : List Nat) (ins : instr) : List String :=
  match ins.code with
  | Code.Char => ["    char " ++ String.mk [ins.c]]
  | Code.Match => ["    match"]
  | Code.Jump => ["    jump L" ++ toString ins.x]
  | Code.Split => ["    split L" ++ toString (nums.getD ins.x 0) ++ " L"
      ++ toString (nums.getD ins.y 0)]
  | Code.Save => ["    save " ++ toString ins.s]
  | _ => []

def writeLinesAux (nums : List Nat) : List (instr × Nat) → List String
  | [] => []
  | (ins, k) :: rest =>
    (if 0 < k then ["L" ++ toString k ++ ":"] else []) ++ instrText nums ins
      ++ writeLinesAux nums rest

/-- `write_prog()` from `instr.c`, producing the printed text (each
`fprintf` line ends in a newline). -/
def write_prog (prog : List instr) : String :=
  let nums := assignNums ((List.range prog.length).map (marked prog)) 1
  String.join ((writeLinesAux nums (prog.zip nums)).map (fun l => l ++ "\n"))

/-! ## Code generation (`src/codegen.c`, parse-tree shapes from `src/parse.c`) -/

/-- Terminal symbols (`enum TSym` from `regparse.h`). -/
inductive TSym where
  | CharSym
  | Special
  | Eof
  | LParen
  | RParen
  | LBracket
  | RBracket
  | Plus
  | Minus
  | Star
  | Question
  | Caret
  | Pipe
  | Dot
deriving DecidableEq, Repr

/-- `struct Token`. -/
structure Token where
  sym : TSym
  c : Char
deriving DecidableEq, Repr

/-- Non-terminal kinds (`enum NTSym`). -/
inductive NTSym where
  | TERMnt
  | EXPRnt
  | REGEXnt
  | CLASSnt
  | SUBnt
deriving DecidableEq, Repr

/-- The parse tree consumed by the code generator (`struct parse_tree`):
a terminal node carrying a token, or a non-terminal with its `nt` kind and
one to four children (`nchildren` is the constructor arity). -/
inductive parse_tree where
  | leaf (tok : Token)
  | node1 (nt : NTSym) (c0 : parse_tree)
  | node2 (nt : NTSym) (c0 c1 : parse_tree)
  | node3 (nt : NTSym) (c0 c1 c2 : parse_tree)
  | node4 (nt : NTSym) (c0 c1 c2 c3 : parse_tree)
deriving DecidableEq, Repr

/-- `t->tok` for an arbitrary node: a non-terminal's token field is
zero-initialized by `calloc` (symbol 0 = `CharSym`, character `'\0'`). -/
def tokOf : parse_tree → Token
  | parse_tree.leaf tok => tok
  | _ => ⟨TSym.CharSym, '\x00'⟩

/-- `struct Fragment`: one instruction plus its unique symbolic id.  In a
fragment's instruction the `x`/`y` fields hold fragment *ids*, not program
indices; `codegen` resolves them at the end. -/
structure Fragment where
  ins : instr
  fid : Nat
deriving DecidableEq, Repr

/-- A fragment list (the C's singly linked `Fragment` chain). -/
abbrev Frag := List Fragment

/-- `struct State`: the id counter and the capture-slot counter. -/
structure State where
  id : Nat
  capture : Nat
deriving DecidableEq, Repr

/-- `newfrag()`: a zero-initialized instruction with the given opcode and
the next fragment id. -/
def newfrag (code : Code) (st : State) : Fragment × State :=
  (⟨{ code := code }, st.id⟩, { st with id := st.id + 1 })

/-- `b->id` / `f->id`: the id of the head fragment of a list (reading the
head of an empty list would be a `NULL` dereference in the C; the default
is never reached by the code generator). -/
def headFid (f : Frag) : Nat :=
  match f.headD ⟨{}, 0⟩ with
  | fr => fr.fid

/-- The rewriting that `join`'s loop applies to every fragment of `A`
except the last: a `Match` becomes `Jump → B.head`; then a `Jump`/`Split`
target equal to the id of `A`'s trailing `Match` (`lastid`, the C sentinel
`(instr*)-1` when the last fragment is not a `Match`, modelled as `none`)
is redirected to `B.head`. -/
def joinRewrite (bid : Nat) (lastid : Option Nat) (f : Fragment) : Fragment :=
  let i0 := f.ins
  let i1 := if i0.code = Code.Match then { i0 with code := Code.Jump, x := bid } else i0
  let i2 := if (i1.code = Code.Jump ∨ i1.code = Code.Split) ∧ some i1.x = lastid then
      { i1 with x := bid } else i1
  let i3 := if i2.code = Code.Split ∧ some i2.y = lastid then { i2 with y := bid } else i2
  ⟨i3, f.fid⟩

/-- `join()` from `codegen.c`.  The C loop rewrites every fragment except
the last, then — only when a previous fragment exists (`prev != NULL`,
i.e. `|A| ≥ 2`) and the last fragment is a `Match` — frees that `Match`
and links `B`; in every other case `B` is *not* linked and `A` (with its
internal rewrites) is the entire result.  `join(NULL, b)` would crash in
the C; the empty case returns the empty list. -/
def join (a b : Frag) : Frag :=
  match a.getLast? with
  | none => []
  | some l =>
    let lastid : Option Nat := if l.ins.code = Code.Match then some l.fid else none
    let body := a.dropLast.map (joinRewrite (headFid b) lastid)
    if 2 ≤ a.length ∧ l.ins.code = Code.Match then body ++ b else body ++ [l]

/-- `fraglen()`. -/
def fraglen (f : Frag) : Nat := f.length

/-- The quantifier templates in `expr()` (`codegen.c`).  `f` is the
translation of the TERM (`NULL` — i.e. `none` — would be dereferenced for
its id in the C, modelled as an error); `nongreedy` is `t->nchildren == 3`.
The C statement order is kept: for `+`, `join(f, a)` runs *before*
`a->next = b`, so `b` is attached only when `a` actually became the tail
of `f`'s list. -/
def quantG (fq : Option Frag) (sym : TSym) (nongreedy : Bool) (st : State) :
    Except String (Option Frag × State) :=
  match fq with
  | none => Except.error "segfault: NULL fragment in expr"
  | some f =>
    match sym with
    | TSym.Star =>
      let (a, st) := newfrag Code.Split st
      let (b, st) := newfrag Code.Jump st
      let (c, st) := newfrag Code.Match st
      let a := if nongreedy then { a with ins := { a.ins with x := c.fid, y := headFid f } }
               else { a with ins := { a.ins with x := headFid f, y := c.fid } }
      let b := { b with ins := { b.ins with x := a.fid } }
      Except.ok (some (join (a :: f) [b, c]), st)
    | TSym.Plus =>
      let (a, st) := newfrag Code.Split st
      let (b, st) := newfrag Code.Match st
      let a := if nongreedy then { a with ins := { a.ins with x := b.fid, y := headFid f } }
               else { a with ins := { a.ins with x := headFid f, y := b.fid } }
      let fl := join f [a]
      let res := if fl.getLast?.map Fragment.fid = some a.fid then fl ++ [b] else fl
      Except.ok (some res, st)
    | TSym.Question =>
      let (a, st) := newfrag Code.Split st
      let (b, st) := newfrag Code.Match st
      let a := if nongreedy then { a with ins := { a.ins with x := b.fid, y := headFid f } }
               else { a with ins := { a.ins with x := headFid f, y := b.fid } }
      Except.ok (some (a :: join f [b]), st)
    | _ => Except.ok (none, st)

mutual

/-- `term()` from `codegen.c`.  `.error` models `exit(1)` (the
character-class branch) and the assertion; the `Special` branch and an
unhandled one-child symbol return `NULL` (`none`) after only printing.
Note the parenthesized-expression guard: the C compares
`t->children[0]->tok.sym` with `RParen`, not `LParen`. -/
def term : parse_tree → State → Except String (Option Frag × State)
  | parse_tree.leaf _, _ =>
    -- a terminal has nt = 0 = TERMnt (calloc), passes the assert, and has
    -- nchildren = 0, so it falls into the final else branch
    Except.error "not implemented: term character class"
  | parse_tree.node1 nt c0, st =>
    if nt ≠ NTSym.TERMnt then Except.error "assertion failed: t->nt == TERMnt"
    else
      let tk := tokOf c0
      if tk.sym = TSym.CharSym then
        let (f1, st) := newfrag Code.Char st
        let f1 := { f1 with ins := { f1.ins with c := tk.c } }
        let (f2, st) := newfrag Code.Match st
        Except.ok (some [f1, f2], st)
      else if tk.sym = TSym.Dot then
        let (f1, st) := newfrag Code.Any st
        let (f2, st) := newfrag Code.Match st
        Except.ok (some [f1, f2], st)
      else if tk.sym = TSym.Special then
        Except.ok (none, st)   -- prints "not implemented: term special", returns NULL
      else
        Except.ok (none, st)   -- no branch taken, f stays NULL
  | parse_tree.node3 nt c0 c1 _c2, st =>
    if nt ≠ NTSym.TERMnt then Except.error "assertion failed: t->nt == TERMnt"
    else if (tokOf c0).sym = TSym.RParen then
      let (fS, st) := newfrag Code.Save st
      let fS := { fS with ins := { fS.ins with s := st.capture } }
      let st := { st with capture := st.capture + 1 }
      match regex c1 st with
      | Except.error e => Except.error e
      | Except.ok (r, st) =>
        let (nS, st) := newfrag Code.Save st
        let nS := { nS with ins := { nS.ins with s := st.capture } }
        let st := { st with capture := st.capture + 1 }
        let (nM, st) := newfrag Code.Match st
        Except.ok (some (join (fS :: r.getD []) [nS, nM]), st)
    else Except.error "not implemented: term character class"
  | parse_tree.node2 nt _ _, _ | parse_tree.node4 nt _ _ _ _, _ =>
    if nt ≠ NTSym.TERMnt then Except.error "assertion failed: t->nt == TERMnt"
    else Except.error "not implemented: term character class"

/-- `expr()` from `codegen.c`: translate the TERM, then apply the
quantifier templates when a second child is present (`node3` is the
non-greedy, three-children form; a four-children EXPR takes the greedy
path, because the C only tests `nchildren == 3`). -/
def expr : parse_tree → State → Except String (Option Frag × State)
  | parse_tree.leaf _, _ => Except.error "assertion failed: t->nt == EXPRnt"
  | parse_tree.node1 nt c0, st =>
    if nt ≠ NTSym.EXPRnt then Except.error "assertion failed: t->nt == EXPRnt"
    else term c0 st
  | parse_tree.node2 nt c0 c1, st =>
    if nt ≠ NTSym.EXPRnt then Except.error "assertion failed: t->nt == EXPRnt"
    else
      match term c0 st with
      | Except.error e => Except.error e
      | Except.ok (fq, st) => quantG fq (tokOf c1).sym false st
  | parse_tree.node3 nt c0 c1 _c2, st =>
    if nt ≠ NTSym.EXPRnt then Except.error "assertion failed: t->nt == EXPRnt"
    else
      match term c0 st with
      | Except.error e => Except.error e
      | Except.ok (fq, st) => quantG fq (tokOf c1).sym true st
  | parse_tree.node4 nt c0 c1 _c2 _c3, st =>
    if nt ≠ NTSym.EXPRnt then Except.error "assertion failed: t->nt == EXPRnt"
    else
      match term c0 st with
      | Except.error e => Except.error e
      | Except.ok (fq, st) => quantG fq (tokOf c1).sym false st

/-- `sub()` from `codegen.c`: translate the EXPR; with a second child,
translate the SUB and `join` the two (`join(NULL, …)` would crash). -/
def sub : parse_tree → State → Except String (Option Frag × State)
  | parse_tree.leaf _, _ => Except.error "assertion failed: tree->nt == SUBnt"
  | parse_tree.node1 nt c0, st =>
    if nt ≠ NTSym.SUBnt then Except.error "assertion failed: tree->nt == SUBnt"
    else expr c0 st
  | parse_tree.node2 nt c0 c1, st =>
    if nt ≠ NTSym.SUBnt then Except.error "assertion failed: tree->nt == SUBnt"
    else
      match expr c0 st with
      | Except.error e => Except.error e
      | Except.ok (eq, st) =>
        match sub c1 st with
        | Except.error e => Except.error e
        | Except.ok (s2, st) =>
          match eq with
          | none => Except.error "segfault: NULL fragment in sub"
          | some e => Except.ok (some (join e (s2.getD [])), st)
  | parse_tree.node3 nt c0 _ _, st =>
    if nt ≠ NTSym.SUBnt then Except.error "assertion failed: tree->nt == SUBnt"
    else expr c0 st
  | parse_tree.node4 nt c0 _ _ _, st =>
    if nt ≠ NTSym.SUBnt then Except.error "assertion failed: tree->nt == SUBnt"
    else expr c0 st

/-- `regex()` from `codegen.c`: translate the SUB; with three children
(`SUB Pipe REGEX`), build `split L1 L2 / … / jump L3 / … / match` in the
C's allocation order (`r`, then `pre`, then `m`, then `j`). -/
def regex : parse_tree → State → Except String (Option Frag × State)
  | parse_tree.leaf _, _ => Except.error "assertion failed: tree->nt == REGEXnt"
  | parse_tree.node1 nt c0, st =>
    if nt ≠ NTSym.REGEXnt then Except.error "assertion failed: tree->nt == REGEXnt"
    else sub c0 st
  | parse_tree.node2 nt c0 _, st =>
    if nt ≠ NTSym.REGEXnt then Except.error "assertion failed: tree->nt == REGEXnt"
    else sub c0 st
  | parse_tree.node3 nt c0 _c1 c2, st =>
    if nt ≠ NTSym.REGEXnt then Except.error "assertion failed: tree->nt == REGEXnt"
    else
      match sub c0 st with
      | Except.error e => Except.error e
      | Except.ok (sq, st) =>
        match regex c2 st with
        | Except.error e => Except.error e
        | Except.ok (rq, st) =>
          match sq, rq with
          | some sL, some rL =>
            let (pre, st) := newfrag Code.Split st
            let pre := { pre with ins :=
              { pre.ins with x := headFid sL, y := headFid rL } }
            let (m, st) := newfrag Code.Match st
            let (j, st) := newfrag Code.Jump st
            let j := { j with ins := { j.ins with x := m.fid } }
            let j1 := join (j :: rL) [m]
            Except.ok (some (join (pre :: sL) j1), st)
          | _, _ => Except.error "segfault: NULL fragment in regex"
  | parse_tree.node4 nt c0 _ _ _, st =>
    if nt ≠ NTSym.REGEXnt then Except.error "assertion failed: tree->nt == REGEXnt"
    else sub c0 st

end

/-- `codegen()` from `codegen.c`: generate the fragment list, then flatten
it and resolve the symbolic jump/split ids through the position table
(`targets`); an id that no longer occurs in the list resolves to the
zero-initialized table entry `0`, as in the C. -/
def codegen (tree : parse_tree) : Except String (List instr) :=
  match regex tree ⟨0, 0⟩ with
  | Except.error e => Except.error e
  | Except.ok (fq, _) =>
    let f := fq.getD []
    let resolve := fun id => (f.findIdx? (fun fr => fr.fid = id)).getD 0
    Except.ok (f.map fun fr =>
      let i := fr.ins
      if i.code = Code.Jump then { i with x := resolve i.x }
      else if i.code = Code.Split then { i with x := resolve i.x, y := resolve i.y }
      else i)

/-! ## Concrete fixtures used by the theorems -/

/-- The parse tree of the single character `c` as a TERM
(`TERM → CharSym`, contract §6.1). -/
def tChar (c : Char) : parse_tree :=
  parse_tree.node1 NTSym.TERMnt (parse_tree.leaf ⟨TSym.CharSym, c⟩)

def tExpr (t : parse_tree) : parse_tree := parse_tree.node1 NTSym.EXPRnt t

def tSub1 (e : parse_tree) : parse_tree := parse_tree.node1 NTSym.SUBnt e

def tSub2 (e s : parse_tree) : parse_tree := parse_tree.node2 NTSym.SUBnt e s

def tRegex1 (s : parse_tree) : parse_tree := parse_tree.node1 NTSym.REGEXnt s

/-- `REGEX → SUB Pipe REGEX` (contract §6.1). -/
def tRegexAlt (s r : parse_tree) : parse_tree :=
  parse_tree.node3 NTSym.REGEXnt s (parse_tree.leaf ⟨TSym.Pipe, '|'⟩) r

/-- The contract-shaped parse tree of `a|ab`. -/
def tree_a_ab : parse_tree :=
  tRegexAlt (tSub1 (tExpr (tChar 'a')))
    (tRegex1 (tSub2 (tExpr (tChar 'a')) (tSub1 (tExpr (tChar 'b')))))

/-- The contract-shaped parse tree of `ab|a`. -/
def tree_ab_a : parse_tree :=
  tRegexAlt (tSub2 (tExpr (tChar 'a')) (tSub1 (tExpr (tChar 'b'))))
    (tRegex1 (tSub1 (tExpr (tChar 'a'))))

/-- A TERM node in the exact shape of the parse-tree contract for
`( REGEX )`: children `(LParen, REGEX, RParen)`, the inner REGEX being the
translation-ready tree of `a` (this is the tree `parse.c`'s `TERM()`
builds for `(a)`). -/
def treeParen : parse_tree :=
  parse_tree.node3 NTSym.TERMnt (parse_tree.leaf ⟨TSym.LParen, '('⟩)
    (tRegex1 (tSub1 (tExpr (tChar 'a')))) (parse_tree.leaf ⟨TSym.RParen, ')'⟩)

/-- The compiled program of `a*` (exactly `codegen` on the contract tree
of `a*`): `0: split 1 3; 1: char a; 2: jump 0; 3: match`. -/
def aStarProg : List instr :=
  [{ code := Code.Split, x := 1, y := 3 }, { code := Code.Char, c := 'a' },
   { code := Code.Jump, x := 0 }, { code := Code.Match }]

/-- A program whose only `Save` instruction uses slot 1: `save 1; match`
(writable as assembly, and readable by `read_prog`). -/
def progC3 : List instr := [{ code := Code.Save, s := 1 }, { code := Code.Match }]

/-- `char a; split 2 2; split 3 3; match` — a well-formed program (all
targets in range) that makes the `addthread` cascade of a single step
issue more invocations than the program length, because the duplicate
second branches of the splits still count as invocations. -/
def progC7 : List instr :=
  [{ code := Code.Char, c := 'a' }, { code := Code.Split, x := 2, y := 2 },
   { code := Code.Split, x := 3, y := 3 }, { code := Code.Match }]

/-- `split 1 1; char a` — used to instantiate the `addthread` theorems. -/
def progC5 : List instr :=
  [{ code := Code.Split, x := 1, y := 1 }, { code := Code.Char, c := 'a' }]

/-- The one-instruction program `match`. -/
def progMatch : List instr := [{ code := Code.Match }]

/-- A program containing a `Char` instruction whose character is the NUL
byte (as produced, e.g., by `read_instr`'s unknown-opcode fallthrough),
followed by an ordinary `Char`. -/
def progC10 : List instr :=
  [{ code := Code.Char, c := '\x00' }, { code := Code.Char, c := 'a' }]

/-- A one-fragment list whose instruction is not a `Match` (fragment-join
counterexample input `A`). -/
def joinA : Frag := [⟨{ code := Code.Char, c := 'a' }, 0⟩]

/-- A one-fragment `Match` list (fragment-join counterexample input `B`). -/
def joinB : Frag := [⟨{ code := Code.Match }, 1⟩]

/-! ## Invariant predicates used by the VM theorems -/

/-- A thread whose program counter points at a real instruction that is
not one of the epsilon opcodes `Jump`, `Split`, `Save`. -/
def threadOkB (prog : List instr) (t : thread) : Bool :=
  match prog[t.pc]? with
  | some i => decide (i.code ≠ Code.Jump ∧ i.code ≠ Code.Split ∧ i.code ≠ Code.Save)
  | none => false

/-- Every thread of the list satisfies `threadOkB`. -/
def ThreadsOk (prog : List instr) (ts : List thread) : Prop :=
  ∀ t ∈ ts, threadOkB prog t = true

/-- The thread-list invariant behind the capacity bound: the stored
program counters are pairwise distinct, in range, and each is marked in
`lastidx` with the step's string index. -/
def ListInv (prog : List instr) (sp : Nat) (li : Nat → Option Nat)
    (ts : List thread) : Prop :=
  (ts.map thread.pc).Nodup ∧ ∀ t ∈ ts, t.pc < prog.length ∧ li t.pc = some sp

/-- The number of instructions not yet entered at string index `sp`
(the quantity that each non-duplicate `addthread` invocation strictly
decreases). -/
def unvisited (prog : List instr) (sp : Nat) (li : Nat → Option Nat) : Nat :=
  ((Finset.range prog.length).filter fun i => li i ≠ some sp).card

/-- Every capture vector in the list has length `k`. -/
def SavedLen (k : Nat) (ts : List thread) : Prop :=
  ∀ t ∈ ts, t.saved.length = k

/-! ## Helper lemmas -/

theorem ThreadsOk.append_thread {prog : List instr} {ts : List thread} {t : thread}
    (h : ThreadsOk prog ts) (ht : threadOkB prog t = true) :
    ThreadsOk prog (ts ++ [t]) := by
  intro u hu
  rcases List.mem_append.mp hu with h1 | h2
  · exact h u h1
  · rcases List.mem_singleton.mp h2 with rfl
    exact ht

theorem addthreadFuel_threadsOk (prog : List instr) (sp : Nat) :
    ∀ (fuel : Nat) (li : Nat → Option Nat) (ts : List thread)
      (stack : List (Nat × List Nat)),
      ThreadsOk prog ts →
      ThreadsOk prog (addthreadFuel prog sp fuel li ts stack).threads := by
  intro fuel
  induction fuel with
  | zero => intro li ts stack h; simpa only [addthreadFuel] using h
  | succ n ih =>
    intro li ts stack h
    match stack with
    | [] => simpa only [addthreadFuel] using h
    | (pc, saved) :: rest =>
      simp only [addthreadFuel]
      cases hg : prog[pc]? with
      | none => exact ih li ts rest h
      | some ins =>
        dsimp only
        by_cases hd : li pc = some sp
        · rw [if_pos hd]; exact ih li ts rest h
        · rw [if_neg hd]
          cases hc : ins.code with
          | Jump => exact ih _ ts _ h
          | Split => exact ih _ ts _ h
          | Save => exact ih _ ts _ h
          | Char => exact ih _ _ rest (h.append_thread (by simp [threadOkB, hg, hc]))
          | Match => exact ih _ _ rest (h.append_thread (by simp [threadOkB, hg, hc]))
          | Any => exact ih _ _ rest (h.append_thread (by simp [threadOkB, hg, hc]))
          | Range => exact ih _ _ rest (h.append_thread (by simp [threadOkB, hg, hc]))
          | NRange => exact ih _ _ rest (h.append_thread (by simp [threadOkB, hg, hc]))

theorem lt_of_getElem?_eq_some {l : List instr} {n : Nat} {a : instr}
    (h : l[n]? = some a) : n < l.length := by
  by_contra hh
  rw [List.getElem?_eq_none (Nat.le_of_not_lt hh)] at h
  cases h

theorem ListInv.nil (prog : List instr) (sp : Nat) (li : Nat → Option Nat) :
    ListInv prog sp li [] :=
  ⟨List.nodup_nil, by intro t ht; cases ht⟩

theorem ListInv.mark_preserve {prog : List instr} {sp : Nat} {li : Nat → Option Nat}
    {ts : List thread} (h : ListInv prog sp li ts) (pc : Nat) :
    ListInv prog sp (fun i => if i = pc then some sp else li i) ts := by
  refine ⟨h.1, fun t ht => ⟨(h.2 t ht).1, ?_⟩⟩
  by_cases he : t.pc = pc
  · simp [he]
  · simp [he, (h.2 t ht).2]

theorem ListInv.append_new {prog : List instr} {sp : Nat} {li : Nat → Option Nat}
    {ts : List thread} {pc : Nat} {saved : List Nat}
    (h : ListInv prog sp li ts) (hlt : pc < prog.length) (hnew : li pc ≠ some sp) :
    ListInv prog sp (fun i => if i = pc then some sp else li i)
      (ts ++ [⟨pc, saved⟩]) := by
  constructor
  · rw [List.map_append]
    refine List.nodup_append.mpr ⟨h.1, List.nodup_singleton _, ?_⟩
    intro a ha hb
    simp only [List.map_cons, List.map_nil, List.mem_singleton] at hb
    subst hb
    rcases List.mem_map.mp ha with ⟨t, ht, hpc⟩
    exact hnew (hpc ▸ (h.2 t ht).2)
  · intro t ht
    rcases List.mem_append.mp ht with h1 | h2
    · exact (h.mark_preserve pc).2 t h1
    · rcases List.mem_singleton.mp h2 with rfl
      exact ⟨hlt, by simp⟩

theorem addthreadFuel_listInv (prog : List instr) (sp : Nat) :
    ∀ (fuel : Nat) (li : Nat → Option Nat) (ts : List thread)
      (stack : List (Nat × List Nat)),
      ListInv prog sp li ts →
      ListInv prog sp (addthreadFuel prog sp fuel li ts stack).li
        (addthreadFuel prog sp fuel li ts stack).threads := by
  intro fuel
  induction fuel with
  | zero => intro li ts stack h; simpa only [addthreadFuel] using h
  | succ n ih =>
    intro li ts stack h
    match stack with
    | [] => simpa only [addthreadFuel] using h
    | (pc, saved) :: rest =>
      simp only [addthreadFuel]
      cases hg : prog[pc]? with
      | none => exact ih li ts rest h
      | some ins =>
        dsimp only
        by_cases hd : li pc = some sp
        · rw [if_pos hd]; exact ih li ts rest h
        · rw [if_neg hd]
          cases hc : ins.code with
          | Jump => exact ih _ ts _ (h.mark_preserve pc)
          | Split => exact ih _ ts _ (h.mark_preserve pc)
          | Save => exact ih _ ts _ (h.mark_preserve pc)
          | Char => exact ih _ _ rest (h.append_new (lt_of_getElem?_eq_some hg) hd)
          | Match => exact ih _ _ rest (h.append_new (lt_of_getElem?_eq_some hg) hd)
          | Any => exact ih _ _ rest (h.append_new (lt_of_getElem?_eq_some hg) hd)
          | Range => exact ih _ _ rest (h.append_new (lt_of_getElem?_eq_some hg) hd)
          | NRange => exact ih _ _ rest (h.append_new (lt_of_getElem?_eq_some hg) hd)

theorem unvisited_le (prog : List instr) (sp : Nat) (li : Nat → Option Nat) :
    unvisited prog sp li ≤ prog.length := by
  have h := Finset.card_filter_le (Finset.range prog.length) (fun i => li i ≠ some sp)
  simpa [unvisited, Finset.card_range] using h

theorem unvisited_update (prog : List instr) (sp : Nat) (li : Nat → Option Nat)
    (pc : Nat) (hlt : pc < prog.length) (hne : li pc ≠ some sp) :
    unvisited prog sp (fun i => if i = pc then some sp else li i) + 1
      = unvisited prog sp li := by
  have hmem : pc ∈ (Finset.range prog.length).filter (fun i => li i ≠ some sp) :=
    Finset.mem_filter.mpr ⟨Finset.mem_range.mpr hlt, hne⟩
  have hset : (Finset.range prog.length).filter
      (fun i => (if i = pc then some sp else li i) ≠ some sp)
      = ((Finset.range prog.length).filter (fun i => li i ≠ some sp)).erase pc := by
    ext i
    by_cases he : i = pc
    · subst he
      simp [Finset.mem_filter, Finset.mem_erase]
    · simp [Finset.mem_filter, Finset.mem_erase, he]
  have hpos : 0 < ((Finset.range prog.length).filter (fun i => li i ≠ some sp)).card :=
    Finset.card_pos.mpr ⟨pc, hmem⟩
  unfold unvisited
  rw [hset, Finset.card_erase_of_mem hmem]
  omega
theorem addthreadFuel_eff (prog : List instr) (sp : Nat) :
    ∀ (fuel : Nat) (li : Nat → Option Nat) (ts : List thread)
      (stack : List (Nat × List Nat)),
      (addthreadFuel prog sp fuel li ts stack).eff
        + unvisited prog sp (addthreadFuel prog sp fuel li ts stack).li
      = unvisited prog sp li := by
  intro fuel
  induction fuel with
  | zero => intro li ts stack; simp [addthreadFuel]
  | succ n ih =>
    intro li ts stack
    match stack with
    | [] => simp [addthreadFuel]
    | (pc, saved) :: rest =>
      simp only [addthreadFuel]
      cases hg : prog[pc]? with
      | none => exact ih li ts rest
      | some ins =>
        dsimp only
        by_cases hd : li pc = some sp
        · rw [if_pos hd]; exact ih li ts rest
        · rw [if_neg hd]
          have hu := unvisited_update prog sp li pc (lt_of_getElem?_eq_some hg) hd
          cases hc : ins.code with
          | Jump =>
            have hr := ih (fun i => if i = pc then some sp else li i) ts
              ((ins.x, saved) :: rest)
            dsimp only
            omega
          | Split =>
            have hr := ih (fun i => if i = pc then some sp else li i) ts
              ((ins.x, saved) :: (ins.y, saved) :: rest)
            dsimp only
            omega
          | Save =>
            have hr := ih (fun i => if i = pc then some sp else li i) ts
              ((pc + 1, saved.set ins.s sp) :: rest)
            dsimp only
            omega
          | Char =>
            have hr := ih (fun i => if i = pc then some sp else li i)
              (ts ++ [⟨pc, saved⟩]) rest
            dsimp only
            omega
          | Match =>
            have hr := ih (fun i => if i = pc then some sp else li i)
              (ts ++ [⟨pc, saved⟩]) rest
            dsimp only
            omega
          | Any =>
            have hr := ih (fun i => if i = pc then some sp else li i)
              (ts ++ [⟨pc, saved⟩]) rest
            dsimp only
            omega
          | Range =>
            have hr := ih (fun i => if i = pc then some sp else li i)
              (ts ++ [⟨pc, saved⟩]) rest
            dsimp only
            omega
          | NRange =>
            have hr := ih (fun i => if i = pc then some sp else li i)
              (ts ++ [⟨pc, saved⟩]) rest
            dsimp only
            omega

theorem SavedLen.append_saved {k : Nat} {ts : List thread} {t : thread}
    (h : SavedLen k ts) (ht : t.saved.length = k) : SavedLen k (ts ++ [t]) := by
  intro u hu
  rcases List.mem_append.mp hu with h1 | h2
  · exact h u h1
  · rcases List.mem_singleton.mp h2 with rfl
    exact ht

theorem addthreadFuel_savedLen (prog : List instr) (sp : Nat) (k : Nat) :
    ∀ (fuel : Nat) (li : Nat → Option Nat) (ts : List thread)
      (stack : List (Nat × List Nat)),
      SavedLen k ts → (∀ p ∈ stack, p.2.length = k) →
      SavedLen k (addthreadFuel prog sp fuel li ts stack).threads := by
  intro fuel
  induction fuel with
  | zero => intro li ts stack h _; simpa only [addthreadFuel] using h
  | succ n ih =>
    intro li ts stack h hst
    match stack with
    | [] => simpa only [addthreadFuel] using h
    | (pc, saved) :: rest =>
      have hsv : saved.length = k := hst (pc, saved) (List.mem_cons_self _ _)
      have hrest : ∀ p ∈ rest, p.2.length = k := fun p hp => hst p (List.mem_cons_of_mem _ hp)
      simp only [addthreadFuel]
      cases hg : prog[pc]? with
      | none => exact ih li ts rest h hrest
      | some ins =>
        dsimp only
        by_cases hd : li pc = some sp
        · rw [if_pos hd]; exact ih li ts rest h hrest
        · rw [if_neg hd]
          cases hc : ins.code with
          | Jump =>
            refine ih _ ts _ h ?_
            intro p hp
            rcases List.mem_cons.mp hp with rfl | hp2
            · exact hsv
            · exact hrest p hp2
          | Split =>
            refine ih _ ts _ h ?_
            intro p hp
            rcases List.mem_cons.mp hp with rfl | hp2
            · exact hsv
            · rcases List.mem_cons.mp hp2 with rfl | hp3
              · exact hsv
              · exact hrest p hp3
          | Save =>
            refine ih _ ts _ h ?_
            intro p hp
            rcases List.mem_cons.mp hp with rfl | hp2
            · simpa [List.length_set] using hsv
            · exact hrest p hp2
          | Char => exact ih _ _ rest (h.append_saved hsv) hrest
          | Match => exact ih _ _ rest (h.append_saved hsv) hrest
          | Any => exact ih _ _ rest (h.append_saved hsv) hrest
          | Range => exact ih _ _ rest (h.append_saved hsv) hrest
          | NRange => exact ih _ _ rest (h.append_saved hsv) hrest

theorem addthread_listInv (prog : List instr) (sp : Nat) (li : Nat → Option Nat)
    (ts : List thread) (pc : Nat) (saved : List Nat) (h : ListInv prog sp li ts) :
    ListInv prog sp (addthread prog sp li ts pc saved).li
      (addthread prog sp li ts pc saved).threads :=
  addthreadFuel_listInv prog sp _ li ts _ h

theorem addthread_eff (prog : List instr) (sp : Nat) (li : Nat → Option Nat)
    (ts : List thread) (pc : Nat) (saved : List Nat) :
    (addthread prog sp li ts pc saved).eff
      + unvisited prog sp (addthread prog sp li ts pc saved).li
    = unvisited prog sp li :=
  addthreadFuel_eff prog sp _ li ts _

theorem addthread_savedLen (prog : List instr) (sp : Nat) (k : Nat)
    (li : Nat → Option Nat) (ts : List thread) (pc : Nat) (saved : List Nat)
    (h : SavedLen k ts) (hs : saved.length = k) :
    SavedLen k (addthread prog sp li ts pc saved).threads := by
  refine addthreadFuel_savedLen prog sp k _ li ts _ h ?_
  intro p hp
  rcases List.mem_singleton.mp hp with rfl
  exact hs

theorem SavedLen.of_cons {k : Nat} {t : thread} {ts : List thread}
    (h : SavedLen k (t :: ts)) : SavedLen k ts :=
  fun u hu => h u (List.mem_cons_of_mem _ hu)

theorem stepThreads_listInv (prog : List instr) (input : List Char) (sp : Nat) :
    ∀ (ts : List thread) (li : Nat → Option Nat) (next : List thread)
      (tot eff : Nat) (reads : List Nat),
      ListInv prog (sp + 1) li next →
      ListInv prog (sp + 1) (stepThreads prog input sp ts li next tot eff reads).li
        (stepThreads prog input sp ts li next tot eff reads).next := by
  intro ts
  induction ts with
  | nil => intro li next tot eff reads h; simpa only [stepThreads] using h
  | cons t rest ih =>
    intro li next tot eff reads h
    simp only [stepThreads]
    cases hg : prog[t.pc]? with
    | none => exact ih li next tot eff reads h
    | some ins =>
      dsimp only
      cases hc : ins.code with
      | Char =>
        by_cases hm : cstrGet input sp = ins.c
        · rw [if_pos hm]
          exact ih _ _ _ _ _ (addthread_listInv prog (sp + 1) li next (t.pc + 1) t.saved h)
        · rw [if_neg hm]; exact ih li next tot eff _ h
      | Any =>
        by_cases hm : cstrGet input sp = '\x00'
        · rw [if_pos hm]; exact ih li next tot eff _ h
        · rw [if_neg hm]
          exact ih _ _ _ _ _ (addthread_listInv prog (sp + 1) li next (t.pc + 1) t.saved h)
      | Range =>
        by_cases hm : range ins (cstrGet input sp) = true
        · rw [if_pos hm]
          exact ih _ _ _ _ _ (addthread_listInv prog (sp + 1) li next (t.pc + 1) t.saved h)
        · rw [if_neg hm]; exact ih li next tot eff _ h
      | NRange =>
        by_cases hm : range ins (cstrGet input sp) = true
        · rw [if_pos hm]
          exact ih _ _ _ _ _ (addthread_listInv prog (sp + 1) li next (t.pc + 1) t.saved h)
        · rw [if_neg hm]; exact ih li next tot eff _ h
      | Match => exact h
      | Jump => exact ih li next tot eff reads h
      | Split => exact ih li next tot eff reads h
      | Save => exact ih li next tot eff reads h

theorem stepThreads_eff (prog : List instr) (input : List Char) (sp : Nat) :
    ∀ (ts : List thread) (li : Nat → Option Nat) (next : List thread)
      (tot eff : Nat) (reads : List Nat),
      (stepThreads prog input sp ts li next tot eff reads).eff
        + unvisited prog (sp + 1) (stepThreads prog input sp ts li next tot eff reads).li
      = eff + unvisited prog (sp + 1) li := by
  intro ts
  induction ts with
  | nil => intro li next tot eff reads; simp [stepThreads]
  | cons t rest ih =>
    intro li next tot eff reads
    simp only [stepThreads]
    cases hg : prog[t.pc]? with
    | none => exact ih li next tot eff reads
    | some ins =>
      dsimp only
      cases hc : ins.code with
      | Char =>
        dsimp only
        by_cases hm : cstrGet input sp = ins.c
        · rw [if_pos hm]
          have hr := addthread_eff prog (sp + 1) li next (t.pc + 1) t.saved
          have hi := ih (addthread prog (sp + 1) li next (t.pc + 1) t.saved).li
            (addthread prog (sp + 1) li next (t.pc + 1) t.saved).threads
            (tot + (addthread prog (sp + 1) li next (t.pc + 1) t.saved).total)
            (eff + (addthread prog (sp + 1) li next (t.pc + 1) t.saved).eff)
            (reads ++ [sp])
          omega
        · rw [if_neg hm]; exact ih li next tot eff _
      | Any =>
        dsimp only
        by_cases hm : cstrGet input sp = '\x00'
        · rw [if_pos hm]; exact ih li next tot eff _
        · rw [if_neg hm]
          have hr := addthread_eff prog (sp + 1) li next (t.pc + 1) t.saved
          have hi := ih (addthread prog (sp + 1) li next (t.pc + 1) t.saved).li
            (addthread prog (sp + 1) li next (t.pc + 1) t.saved).threads
            (tot + (addthread prog (sp + 1) li next (t.pc + 1) t.saved).total)
            (eff + (addthread prog (sp + 1) li next (t.pc + 1) t.saved).eff)
            (reads ++ [sp])
          omega
      | Range =>
        dsimp only
        by_cases hm : range ins (cstrGet input sp) = true
        · rw [if_pos hm]
          have hr := addthread_eff prog (sp + 1) li next (t.pc + 1) t.saved
          have hi := ih (addthread prog (sp + 1) li next (t.pc + 1) t.saved).li
            (addthread prog (sp + 1) li next (t.pc + 1) t.saved).threads
            (tot + (addthread prog (sp + 1) li next (t.pc + 1) t.saved).total)
            (eff + (addthread prog (sp + 1) li next (t.pc + 1) t.saved).eff)
            (reads ++ [sp])
          omega
        · rw [if_neg hm]; exact ih li next tot eff _
      | NRange =>
        dsimp only
        by_cases hm : range ins (cstrGet input sp) = true
        · rw [if_pos hm]
          have hr := addthread_eff prog (sp + 1) li next (t.pc + 1) t.saved
          have hi := ih (addthread prog (sp + 1) li next (t.pc + 1) t.saved).li
            (addthread prog (sp + 1) li next (t.pc + 1) t.saved).threads
            (tot + (addthread prog (sp + 1) li next (t.pc + 1) t.saved).total)
            (eff + (addthread prog (sp + 1) li next (t.pc + 1) t.saved).eff)
            (reads ++ [sp])
          omega
        · rw [if_neg hm]; exact ih li next tot eff _
      | Match => rfl
      | Jump => exact ih li next tot eff reads
      | Split => exact ih li next tot eff reads
      | Save => exact ih li next tot eff reads

theorem stepThreads_savedLen (prog : List instr) (input : List Char) (sp : Nat) (k : Nat) :
    ∀ (ts : List thread) (li : Nat → Option Nat) (next : List thread)
      (tot eff : Nat) (reads : List Nat),
      SavedLen k ts → SavedLen k next →
      SavedLen k (stepThreads prog input sp ts li next tot eff reads).next
        ∧ ∀ p, (stepThreads prog input sp ts li next tot eff reads).matched = some p →
            p.2.length = k := by
  intro ts
  induction ts with
  | nil =>
    intro li next tot eff reads _ hn
    refine ⟨by simpa only [stepThreads] using hn, ?_⟩
    intro p hp
    simp only [stepThreads] at hp
    cases hp
  | cons t rest ih =>
    intro li next tot eff reads hts hn
    have htl : t.saved.length = k := hts t (List.mem_cons_self _ _)
    have hrest : SavedLen k rest := hts.of_cons
    simp only [stepThreads]
    cases hg : prog[t.pc]? with
    | none => exact ih li next tot eff reads hrest hn
    | some ins =>
      dsimp only
      cases hc : ins.code with
      | Char =>
        by_cases hm : cstrGet input sp = ins.c
        · rw [if_pos hm]
          exact ih _ _ _ _ _ hrest
            (addthread_savedLen prog (sp + 1) k li next (t.pc + 1) t.saved hn htl)
        · rw [if_neg hm]; exact ih li next tot eff _ hrest hn
      | Any =>
        by_cases hm : cstrGet input sp = '\x00'
        · rw [if_pos hm]; exact ih li next tot eff _ hrest hn
        · rw [if_neg hm]
          exact ih _ _ _ _ _ hrest
            (addthread_savedLen prog (sp + 1) k li next (t.pc + 1) t.saved hn htl)
      | Range =>
        by_cases hm : range ins (cstrGet input sp) = true
        · rw [if_pos hm]
          exact ih _ _ _ _ _ hrest
            (addthread_savedLen prog (sp + 1) k li next (t.pc + 1) t.saved hn htl)
        · rw [if_neg hm]; exact ih li next tot eff _ hrest hn
      | NRange =>
        by_cases hm : range ins (cstrGet input sp) = true
        · rw [if_pos hm]
          exact ih _ _ _ _ _ hrest
            (addthread_savedLen prog (sp + 1) k li next (t.pc + 1) t.saved hn htl)
        · rw [if_neg hm]; exact ih li next tot eff _ hrest hn
      | Match =>
        refine ⟨hn, ?_⟩
        intro p hp
        cases hp
        exact htl
      | Jump => exact ih li next tot eff reads hrest hn
      | Split => exact ih li next tot eff reads hrest hn
      | Save => exact ih li next tot eff reads hrest hn

theorem nodup_lt_length_le {l : List Nat} {n : Nat} (hn : l.Nodup)
    (hb : ∀ x ∈ l, x < n) : l.length ≤ n := by
  classical
  have h1 : l.toFinset ⊆ Finset.range n := by
    intro x hx
    exact Finset.mem_range.mpr (hb x (List.mem_toFinset.mp hx))
  have h2 := Finset.card_le_card h1
  rwa [List.toFinset_card_of_nodup hn, Finset.card_range] at h2

theorem ListInv.length_le {prog : List instr} {sp : Nat} {li : Nat → Option Nat}
    {ts : List thread} (h : ListInv prog sp li ts) : ts.length ≤ prog.length := by
  have hb := nodup_lt_length_le h.1 (fun x hx => by
    rcases List.mem_map.mp hx with ⟨t, ht, rfl⟩
    exact (h.2 t ht).1)
  simpa [List.length_map] using hb

theorem executeLoop_trace_bound (prog : List instr) (input : List Char) :
    ∀ (fuel sp : Nat) (li : Nat → Option Nat) (curr : List thread)
      (m : Option Nat) (sv : Option (List Nat)),
      ListInv prog sp li curr →
      ∀ l ∈ (executeLoop prog input fuel sp li curr m sv).trace,
        l.length ≤ prog.length := by
  intro fuel
  induction fuel with
  | zero =>
    intro sp li curr m sv h l hl
    simp only [executeLoop, List.mem_singleton] at hl
    subst hl
    exact h.length_le
  | succ n ih =>
    intro sp li curr m sv h l hl
    by_cases he : curr.isEmpty
    · simp only [executeLoop, if_pos he, List.mem_singleton] at hl
      subst hl
      exact h.length_le
    · simp only [executeLoop, if_neg he] at hl
      rcases List.mem_cons.mp hl with rfl | hl2
      · exact h.length_le
      · exact ih (sp + 1) _ _ _ _
          (stepThreads_listInv prog input sp curr li [] 0 0 [] (ListInv.nil prog (sp + 1) li))
          l hl2

theorem executeLoop_counts_bound (prog : List instr) (input : List Char) :
    ∀ (fuel sp : Nat) (li : Nat → Option Nat) (curr : List thread)
      (m : Option Nat) (sv : Option (List Nat)),
      ∀ c ∈ (executeLoop prog input fuel sp li curr m sv).counts,
        c.2 ≤ prog.length := by
  intro fuel
  induction fuel with
  | zero =>
    intro sp li curr m sv c hcm
    simp only [executeLoop] at hcm
    exact absurd hcm (List.not_mem_nil c)
  | succ n ih =>
    intro sp li curr m sv c hcm
    by_cases he : curr.isEmpty
    · simp only [executeLoop, if_pos he] at hcm
      exact absurd hcm (List.not_mem_nil c)
    · simp only [executeLoop, if_neg he] at hcm
      rcases List.mem_cons.mp hcm with rfl | h2
      · have hst := stepThreads_eff prog input sp curr li [] 0 0 []
        have hle := unvisited_le prog (sp + 1) li
        dsimp only
        omega
      · exact ih (sp + 1) _ _ _ _ c h2

theorem executeLoop_savedLen (prog : List instr) (input : List Char) (k : Nat) :
    ∀ (fuel sp : Nat) (li : Nat → Option Nat) (curr : List thread)
      (m : Option Nat) (sv : Option (List Nat)),
      SavedLen k curr → (∀ s0, sv = some s0 → s0.length = k) →
      (∀ l ∈ (executeLoop prog input fuel sp li curr m sv).trace, SavedLen k l)
        ∧ ∀ s0, (executeLoop prog input fuel sp li curr m sv).saved = some s0 →
            s0.length = k := by
  intro fuel
  induction fuel with
  | zero =>
    intro sp li curr m sv hc hs
    constructor
    · intro l hl
      simp only [executeLoop, List.mem_singleton] at hl
      subst hl
      exact hc
    · intro s0 hs0
      simp only [executeLoop] at hs0
      exact hs s0 hs0
  | succ n ih =>
    intro sp li curr m sv hc hs
    by_cases he : curr.isEmpty
    · constructor
      · intro l hl
        simp only [executeLoop, if_pos he, List.mem_singleton] at hl
        subst hl
        exact hc
      · intro s0 hs0
        simp only [executeLoop, if_pos he] at hs0
        exact hs s0 hs0
    · have hstep := stepThreads_savedLen prog input sp k curr li [] 0 0 [] hc
        (fun t ht => absurd ht (List.not_mem_nil t))
      cases hms : (stepThreads prog input sp curr li [] 0 0 []).matched with
      | none =>
        have hih := ih (sp + 1) (stepThreads prog input sp curr li [] 0 0 []).li
          (stepThreads prog input sp curr li [] 0 0 []).next m sv hstep.1 hs
        constructor
        · intro l hl
          simp only [executeLoop, if_neg he, hms] at hl
          rcases List.mem_cons.mp hl with rfl | hl2
          · exact hc
          · exact hih.1 l hl2
        · intro s0 hs0
          simp only [executeLoop, if_neg he, hms] at hs0
          exact hih.2 s0 hs0
      | some p =>
        have hsv2 : ∀ s0, some p.2 = some s0 → s0.length = k := by
          intro s0 h0
          cases h0
          exact hstep.2 p hms
        have hih := ih (sp + 1) (stepThreads prog input sp curr li [] 0 0 []).li
          (stepThreads prog input sp curr li [] 0 0 []).next (some p.1) (some p.2)
          hstep.1 hsv2
        constructor
        · intro l hl
          simp only [executeLoop, if_neg he, hms] at hl
          rcases List.mem_cons.mp hl with rfl | hl2
          · exact hc
          · exact hih.1 l hl2
        · intro s0 hs0
          simp only [executeLoop, if_neg he, hms] at hs0
          exact hih.2 s0 hs0

theorem cstrGet_eod (input : List Char) (k : Nat) (h : input.length ≤ k) :
    cstrGet input k = '\x00' := by
  unfold cstrGet
  exact List.getD_eq_default _ _ h


/-! ## Claim theorems -/

/-- C1: the spec's round-trip property fails on the code.  For the program
compiled from `a*` (`split 1 3; char a; jump 0; match`), `write_prog`
prints the jump operand as the raw target index (`jump L0`) instead of the
target's assigned label number (the `Split` case uses `labels[...]`, the
`Jump` case forgets to), so the emitted text defines labels `L1 L2 L3` but
references `L0`, and `read_prog` aborts with `label "L0" not found`
instead of reproducing the program. -/
theorem C1_write_then_read_fails :
    write_prog aStarProg =
      "L1:\n    split L2 L3\nL2:\n    char a\n    jump L0\nL3:\n    match\n"
    ∧ (read_prog (write_prog aStarProg)).toOption = none :=
  ⟨rfl, rfl⟩

/-- C2: on a TERM node in the contract shape `(LParen, REGEX, RParen)`,
`term()` does *not* emit `Save 2k; …`: its guard compares
`children[0]->tok.sym` against `RParen` instead of `LParen`, so the
contract-shaped node falls through to the character-class branch and
signals the fatal error (`exit(1)`), contradicting the claim that no
error is signalled. -/
theorem C2_paren_term_rejected :
    term treeParen ⟨0, 0⟩ = Except.error "not implemented: term character class" :=
  rfl

/-- C3 counterexample: for the program `save 1; match`, `execute` computes
the capture-vector length as the *count* of `Save` instructions (1), not
one more than the maximum slot (2) as the claim states; the vector it
allocates and returns has length 1. -/
theorem C3_nsave_counterexample :
    nsaveOf progC3 = 1 ∧ nsaveSpec progC3 = 2
    ∧ (execute progC3 []).saved.map List.length = some 1 :=
  ⟨rfl, rfl, rfl⟩

/-- C3 (amended): `execute` computes the capture-vector length `n_save` as
the number of `Save` instructions in the program (zero if none), and every
capture vector alive during the run — every thread's vector in every
traced thread list, and the stashed result vector — has exactly that
length. -/
theorem C3_capture_vector_length (prog : List instr) (input : List Char) :
    (∀ l ∈ (execute prog input).trace, SavedLen (nsaveOf prog) l)
    ∧ ∀ sv, (execute prog input).saved = some sv → sv.length = nsaveOf prog := by
  have hseed : SavedLen (nsaveOf prog)
      (addthread prog 0 (fun _ => none) [] 0 (List.replicate (nsaveOf prog) 0)).threads :=
    addthread_savedLen prog 0 (nsaveOf prog) (fun _ => none) [] 0 _
      (fun t ht => absurd ht (List.not_mem_nil t)) (List.length_replicate _ _)
  exact executeLoop_savedLen prog input (nsaveOf prog) (input.length + 2) 0 _ _ none none
    hseed (fun s0 hs0 => by cases hs0)

/-- C3 witness: instantiation of the amended claim on `save 1; match` with
empty input (the traced thread `⟨1, [0]⟩` and the returned vector `[0]`
both have length `nsaveOf progC3 = 1`). -/
theorem C3_capture_vector_length_witness :
    SavedLen (nsaveOf progC3) [thread.mk 1 [0]]
    ∧ ([0] : List Nat).length = nsaveOf progC3 :=
  ⟨(C3_capture_vector_length progC3 []).1 [⟨1, [0]⟩] (by decide),
   (C3_capture_vector_length progC3 []).2 [0] (by decide)⟩

/-- C4: compiling the contract parse tree of `a|ab` and executing on `ab`
returns match length 1 (the left arm wins although shorter), and compiling
`ab|a` on the same input returns match length 2. -/
theorem C4_leftmost_priority :
    (codegen tree_a_ab).toOption.map (fun p => (execute p ['a', 'b']).matchLen)
      = some (some 1)
    ∧ (codegen tree_ab_a).toOption.map (fun p => (execute p ['a', 'b']).matchLen)
      = some (some 2) :=
  ⟨rfl, rfl⟩

/-- C5: if every thread already stored in the list points at a
non-epsilon instruction, then after any outer `addthread` call the list
still only holds threads whose opcode is not `Jump`, `Split` or `Save`:
the epsilon opcodes are resolved inside `addthread` (at the same `sp`,
which `addthread` passes unchanged to every recursive call) and are never
appended. -/
theorem C5_thread_lists_non_epsilon (prog : List instr) (sp : Nat)
    (li : Nat → Option Nat) (ts : List thread) (pc : Nat) (saved : List Nat)
    (h : ThreadsOk prog ts) :
    ThreadsOk prog (addthread prog sp li ts pc saved).threads :=
  addthreadFuel_threadsOk prog sp _ li ts _ h

/-- C5 witness: `addthread` on `split 1 1; char a` starting from the empty
list yields only non-epsilon threads. -/
theorem C5_witness :
    ThreadsOk progC5 (addthread progC5 0 (fun _ => none) [] 0 []).threads :=
  C5_thread_lists_non_epsilon progC5 0 (fun _ => none) [] 0 []
    (fun t ht => absurd ht (List.not_mem_nil t))

/-- C6: every thread list occurring during `execute` holds at most
`|prog|` threads.  The trace records each list at its completed size (a
list only grows by appends within a step, so every intermediate size is
dominated by a traced one); the bound holds because `last_visit`
guarantees pairwise-distinct in-range program counters. -/
theorem C6_thread_list_bounded (prog : List instr) (input : List Char) :
    ∀ l ∈ (execute prog input).trace, l.length ≤ prog.length := by
  have hseed : ListInv prog 0
      (addthread prog 0 (fun _ => none) [] 0 (List.replicate (nsaveOf prog) 0)).li
      (addthread prog 0 (fun _ => none) [] 0 (List.replicate (nsaveOf prog) 0)).threads :=
    addthread_listInv prog 0 (fun _ => none) [] 0 _ (ListInv.nil prog 0 _)
  exact executeLoop_trace_bound prog input (input.length + 2) 0 _ _ none none hseed

/-- C6 witness: instantiation on the program `match` with empty input. -/
theorem C6_witness : List.length [thread.mk 0 []] ≤ progMatch.length :=
  C6_thread_list_bounded progMatch [] [⟨0, []⟩] (by decide)

/-- C7 counterexample: for the well-formed program
`char a; split 2 2; split 3 3; match` (length 4) on input `a`, the step at
`sp = 0` performs 5 `addthread` invocations (the duplicate second branches
of the splits count), so the claimed bound `total ≤ |prog|` fails. -/
theorem C7_total_calls_counterexample :
    ¬ ∀ c ∈ (execute progC7 ['a']).counts, c.1 ≤ progC7.length := by
  decide

/-- C7 (amended): within each single input step of `execute`, the number
of `addthread` invocations that pass the `last_visit` duplicate check
(counting recursive calls) is at most the program length; only the
invocations that are immediately rejected as duplicates can push the total
above it. -/
theorem C7_effective_calls_bounded (prog : List instr) (input : List Char) :
    ∀ c ∈ (execute prog input).counts, c.2 ≤ prog.length :=
  executeLoop_counts_bound prog input (input.length + 2) 0 _ _ none none

/-- C7 witness: instantiation on the program `match` with empty input. -/
theorem C7_witness : ((0, 0) : Nat × Nat).2 ≤ progMatch.length :=
  C7_effective_calls_bounded progMatch [] (0, 0) (by decide)

/-- C8 counterexample: for `A = [char a]` (one fragment, not ending in
`Match`) and `B = [match]`, `join` returns just `A` — the C loop body
never runs and the `prev != NULL` guard fails, so `B` is not linked — and
the result has 1 instruction, not `|A| + |B| = 2` as the claim states. -/
theorem C8_join_counterexample :
    (join joinA joinB).length ≠ joinA.length + joinB.length := by
  decide

/-- C8 (amended): `join A B` has `|A| + |B| − 1` instructions when the
last instruction of `A` is a `Match` *and* `A` has at least two
instructions (only then is `B` linked, after `A`'s rewritten body);
otherwise the result is `A` alone — its non-last instructions rewritten,
`B` not linked — with `|A|` instructions. -/
theorem C8_join_length (a b : Frag) :
    (join a b).length =
      if (a.getLast?.map fun f => f.ins.code) = some Code.Match ∧ 2 ≤ a.length
      then a.length + b.length - 1 else a.length := by
  unfold join
  cases hl : a.getLast? with
  | none =>
    have ha : a = [] := by
      cases a with
      | nil => rfl
      | cons x xs => simp [List.getLast?_concat] at hl
    subst ha
    rfl
  | some l =>
    have ha : a ≠ [] := by
      intro h
      subst h
      simp at hl
    have h1 : 1 ≤ a.length := List.length_pos.mpr ha
    dsimp only
    simp only [Option.map_some', Option.some.injEq]
    by_cases hm : l.ins.code = Code.Match
    · by_cases h2 : 2 ≤ a.length
      · rw [if_pos (show 2 ≤ a.length ∧ l.ins.code = Code.Match from ⟨h2, hm⟩),
          if_pos (show l.ins.code = Code.Match ∧ 2 ≤ a.length from ⟨hm, h2⟩)]
        simp only [List.length_append, List.length_map, List.length_dropLast]
        omega
      · rw [if_neg (show ¬(2 ≤ a.length ∧ l.ins.code = Code.Match) from fun hx => h2 hx.1),
          if_neg (show ¬(l.ins.code = Code.Match ∧ 2 ≤ a.length) from fun hx => h2 hx.2)]
        simp only [List.length_append, List.length_map, List.length_dropLast,
          List.length_cons, List.length_nil]
        omega
    · rw [if_neg (show ¬(2 ≤ a.length ∧ l.ins.code = Code.Match) from fun hx => hm hx.2),
        if_neg (show ¬(l.ins.code = Code.Match ∧ 2 ≤ a.length) from fun hx => hm hx.1)]
      simp only [List.length_append, List.length_map, List.length_dropLast,
        List.length_cons, List.length_nil]
      omega


/-- C9: a code line whose first token is not a known mnemonic does *not*
abort the reader.  `read_instr`'s unknown-opcode branch prints its
diagnostic (with the line number) but, unlike every other error branch, it
does not `exit(1)`: it falls through and returns the zero-initialized
instruction, and `read_prog` returns a one-instruction program
(opcode `Char`, character NUL) — a partial result the claim says cannot
exist. -/
theorem C9_unknown_opcode_returns_program :
    read_prog "foo"
      = Except.ok (["line 1: unknown opcode \"foo\""], [{ code := Code.Char }]) :=
  rfl

/-- C10: if `prog[pc]` is `Char` with character NUL and a thread reaches
it with `sp` at the end of the input, the step treats the C-string
terminator as a matching character (`input[sp] == pc->c` holds) and
schedules the successor thread in the `next` list at input position
`length + 1` instead of letting the thread die; the following step then
reads the input buffer at index `length + 1`, one past the terminator —
an out-of-bounds access in the C.  (`ins2` is the successor instruction,
here an input-consuming `Char`, and the thread must not be a
`last_visit` duplicate.) -/
theorem C10_nul_char_matches_terminator (prog : List instr) (pc : Nat)
    (input : List Char) (saved : List Nat) (li : Nat → Option Nat)
    (ins ins2 : instr)
    (h1 : prog[pc]? = some ins) (h2 : ins.code = Code.Char) (h3 : ins.c = '\x00')
    (h4 : prog[pc + 1]? = some ins2) (h5 : ins2.code = Code.Char)
    (h6 : li (pc + 1) ≠ some (input.length + 1)) :
    (stepThreads prog input input.length [⟨pc, saved⟩] li [] 0 0 []).next
      = [⟨pc + 1, saved⟩]
    ∧ (stepThreads prog input (input.length + 1)
        (stepThreads prog input input.length [⟨pc, saved⟩] li [] 0 0 []).next
        (stepThreads prog input input.length [⟨pc, saved⟩] li [] 0 0 []).li
        [] 0 0 []).reads
      = [input.length + 1] := by
  have hread : cstrGet input input.length = ins.c := by
    rw [h3]
    exact cstrGet_eod input _ le_rfl
  have haddt : addthread prog (input.length + 1) li [] (pc + 1) saved
      = ⟨(fun i => if i = pc + 1 then some (input.length + 1) else li i),
         [⟨pc + 1, saved⟩], 1, 1⟩ := by
    unfold addthread
    rw [show 2 * prog.length + 2 = (2 * prog.length + 1) + 1 from rfl]
    simp [addthreadFuel, h4, h5, if_neg h6]
  have hstep1 : stepThreads prog input input.length [⟨pc, saved⟩] li [] 0 0 []
      = ⟨(fun i => if i = pc + 1 then some (input.length + 1) else li i),
         [⟨pc + 1, saved⟩], 1, 1, [input.length], none⟩ := by
    simp [stepThreads, h1, h2, hread, haddt]
  refine ⟨by rw [hstep1], ?_⟩
  rw [hstep1]
  dsimp only
  by_cases hm2 : cstrGet input (input.length + 1) = ins2.c
  · simp [stepThreads, h4, h5, hm2]
  · simp [stepThreads, h4, h5, hm2]

/-- C10 witness: the program `char NUL; char a` on the empty input: the
step at `sp = 0` (the terminator position) schedules `⟨1, []⟩` at
position 1, and the following step reads input index 1, past the
terminator of the empty string. -/
theorem C10_witness :
    (stepThreads progC10 [] 0 [⟨0, []⟩] (fun _ => none) [] 0 0 []).next = [⟨1, []⟩]
    ∧ (stepThreads progC10 [] 1
        (stepThreads progC10 [] 0 [⟨0, []⟩] (fun _ => none) [] 0 0 []).next
        (stepThreads progC10 [] 0 [⟨0, []⟩] (fun _ => none) [] 0 0 []).li
        [] 0 0 []).reads
      = [1] :=
  C10_nul_char_matches_terminator progC10 0 [] [] (fun _ => none)
    { code := Code.Char, c := '\x00' } { code := Code.Char, c := 'a' }
    (by decide) rfl rfl (by decide) rfl (by decide)
